import Mathlib

/-!
Shallow embedding of `sequence_attack.py` (the SequenceAttack game core):
the mutation generator (`new_falling_segment`), the alignment scorer
(`score_alignment`), the leaderboard store (`load_leaderboard`,
`sorted_leaderboard`), and the state-updating parts of the game loop
(landing resolution and the keystroke handler).

Randomness is modelled as an oracle: `random.random()` draws are a stream
`roll : ℕ → ℚ` of values in `[0,1)` (one per processed symbol, indexed by
position), `random.choice` picks are a stream `pick : ℕ → ℕ` of indices
(taken modulo the list length), `random.randint(0, n)` is an index taken
modulo `n + 1`.  Python `int`s are `ℤ`, Python `//` is `Int.fdiv`.
-/

namespace SequenceAttack

/-- `NUCLEOTIDES = ["A", "T", "G", "C"]` from the source. -/
def NUCLEOTIDES : List Char := ['A', 'T', 'G', 'C']

/-- `clamp(value, low, high) = max(low, min(value, high))` from the source,
over Python ints. -/
def clamp (value low high : ℤ) : ℤ := max low (min value high)

/-- `random.choice(NUCLEOTIDES)` under the pick oracle: the pick index is
reduced modulo the alphabet size. -/
def nucChoice (p : ℕ) : Char := NUCLEOTIDES.getD (p % NUCLEOTIDES.length) 'A'

/-- `random.choice([n for n in NUCLEOTIDES if n != base])` under the pick
oracle (the substituted symbol in the SNP branch). -/
def snpChoice (base : Char) (p : ℕ) : Char :=
  let others := NUCLEOTIDES.filter (fun n => n ≠ base)
  others.getD (p % others.length) 'A'

/-- The `{"deletions": …, "snps": …, "insertions": …}` record returned by
`new_falling_segment`. -/
structure MutationCounts where
  deletions : ℕ
  snps : ℕ
  insertions : ℕ
  deriving Repr, DecidableEq

/-- The per-symbol mutation loop of `new_falling_segment` (source lines
27–49): one `random.random()` roll per symbol of the window, with the
cumulative thresholds 0.01 / 0.02 / 0.03 selecting deletion / SNP /
insertion / unchanged.  `i` is the roll-stream index of the first symbol. -/
def mutateFrom (roll : ℕ → ℚ) (pick : ℕ → ℕ) : ℕ → List Char → List Char × MutationCounts
  | _, [] => ([], ⟨0, 0, 0⟩)
  | i, base :: rest =>
    let r := mutateFrom roll pick (i + 1) rest
    if roll i < 1/100 then
      (r.1, { r.2 with deletions := r.2.deletions + 1 })
    else if roll i < 2/100 then
      (snpChoice base (pick i) :: r.1, { r.2 with snps := r.2.snps + 1 })
    else if roll i < 3/100 then
      (base :: nucChoice (pick i) :: r.1, { r.2 with insertions := r.2.insertions + 1 })
    else
      (base :: r.1, r.2)

/-- The window start chosen at source lines 20–24: `0` when the target
length covers the whole reference, else `random.randint(0, len - seg_len)`
(modelled as `startR % (len - seg_len + 1)`). -/
def windowStart (base_seq : List Char) (seg_len startR : ℕ) : ℕ :=
  if seg_len ≥ base_seq.length then 0
  else startR % (base_seq.length - seg_len + 1)

/-- The window itself: `base_seq[:]` or the slice
`base_seq[start : start + seg_len]` (source lines 20–25). -/
def window (base_seq : List Char) (seg_len startR : ℕ) : List Char :=
  if seg_len ≥ base_seq.length then base_seq
  else (base_seq.drop (windowStart base_seq seg_len startR)).take seg_len

/-- `new_falling_segment(base_seq, seg_len)` (source lines 19–52): pick a
window, mutate it symbol by symbol, and force-append one random symbol if
everything was deleted.  Returns `(segment, start, counts)`. -/
def new_falling_segment (base_seq : List Char) (seg_len : ℕ) (startR : ℕ)
    (roll : ℕ → ℚ) (pick : ℕ → ℕ) (finalPick : ℕ) : List Char × ℕ × MutationCounts :=
  let m := mutateFrom roll pick 0 (window base_seq seg_len startR)
  let mutated := if m.1 = [] then [nucChoice finalPick] else m.1
  (mutated, windowStart base_seq seg_len startR, m.2)

/-- `centered_fall_x(play_width, seq_len)` (source lines 55–56); Python
`//` is floor division, hence `Int.fdiv`. -/
def centered_fall_x (play_width seq_len : ℤ) : ℤ :=
  clamp ((play_width - seq_len).fdiv 2) 0 (max 0 (play_width - seq_len))

/-- `bottom[bx]` for an in-range index `bx` (the default is irrelevant:
every use is guarded by `0 <= bx < len(bottom)`). -/
def bottomAt (bottom : List Char) (bx : ℤ) : Char := bottom.getD bx.toNat ' '

/-- The guard of the scoring loop in `score_alignment` (source line 68):
position `i` holding symbol `ch` is comparable when its reference column is
in range and neither side is a blank. -/
def comparableB (bottom : List Char) (fall_x : ℤ) (i : ℕ) (ch : Char) : Bool :=
  decide (0 ≤ fall_x + (i : ℤ)) && decide (fall_x + (i : ℤ) < (bottom.length : ℤ)) &&
    decide (ch ≠ ' ') && decide (bottomAt bottom (fall_x + (i : ℤ)) ≠ ' ')

/-- One iteration of the scoring loop of `score_alignment` (source lines
66–73), acting on the `(score, aligned)` accumulator. -/
def alignStep (bottom : List Char) (fall_x : ℤ) (acc : ℤ × ℕ) (p : ℕ × Char) : ℤ × ℕ :=
  if comparableB bottom fall_x p.1 p.2 then
    if p.2 = bottomAt bottom (fall_x + (p.1 : ℤ)) then (acc.1 + 1, acc.2 + 1)
    else (acc.1 - 1, acc.2)
  else acc

/-- `score_alignment(falling, fall_x, bottom, bottom_y)` (source lines
63–77; the `bottom_y` parameter is unused in the source and omitted).
Returns `(score delta, perfect flag)`. -/
def score_alignment (falling : List Char) (fall_x : ℤ) (bottom : List Char) : ℤ × Bool :=
  let sa := falling.enum.foldl (alignStep bottom fall_x) (0, 0)
  let compCount := falling.enum.countP (fun p => comparableB bottom fall_x p.1 p.2)
  let perfect : Bool := decide (0 < sa.2) && decide (sa.2 = compCount)
  (if perfect then sa.1 + 50 else sa.1, perfect)

/-- The spec's per-position contribution: `+1` for a comparable match, `-1`
for a comparable mismatch, `0` otherwise. -/
def contrib (bottom : List Char) (fall_x : ℤ) (p : ℕ × Char) : ℤ :=
  if comparableB bottom fall_x p.1 p.2 then
    (if p.2 = bottomAt bottom (fall_x + (p.1 : ℤ)) then 1 else -1)
  else 0

/-- A position that is comparable and whose symbols match. -/
def matchB (bottom : List Char) (fall_x : ℤ) (p : ℕ × Char) : Bool :=
  comparableB bottom fall_x p.1 p.2 &&
    decide (p.2 = bottomAt bottom (fall_x + (p.1 : ℤ)))

lemma alignStep_eq (bottom : List Char) (fall_x : ℤ) (acc : ℤ × ℕ) (p : ℕ × Char) :
    alignStep bottom fall_x acc p =
      (acc.1 + contrib bottom fall_x p, acc.2 + (if matchB bottom fall_x p then 1 else 0)) := by
  by_cases hc : comparableB bottom fall_x p.1 p.2 = true
  · by_cases hm : p.2 = bottomAt bottom (fall_x + (p.1 : ℤ))
    · have h1 : contrib bottom fall_x p = 1 := by
        unfold contrib; rw [if_pos hc, if_pos hm]
      have h2 : matchB bottom fall_x p = true := by
        unfold matchB; rw [hc]; simp [hm]
      unfold alignStep; rw [if_pos hc, if_pos hm, h1, h2]; simp
    · have h1 : contrib bottom fall_x p = -1 := by
        unfold contrib; rw [if_pos hc, if_neg hm]
      have h2 : matchB bottom fall_x p = false := by
        unfold matchB; simp [hm]
      unfold alignStep; rw [if_pos hc, if_neg hm, h1, h2]
      simp [sub_eq_add_neg]
  · have hc' : comparableB bottom fall_x p.1 p.2 = false := by
      simpa using hc
    have h1 : contrib bottom fall_x p = 0 := by
      unfold contrib; rw [if_neg hc]
    have h2 : matchB bottom fall_x p = false := by
      unfold matchB; rw [hc']; simp
    unfold alignStep; rw [if_neg hc, h1, h2]; simp

lemma foldl_alignStep (bottom : List Char) (fall_x : ℤ) :
    ∀ (l : List (ℕ × Char)) (s : ℤ) (a : ℕ),
      l.foldl (alignStep bottom fall_x) (s, a) =
        (s + (l.map (contrib bottom fall_x)).sum, a + l.countP (matchB bottom fall_x))
  | [], s, a => by simp
  | p :: l, s, a => by
    rw [List.foldl_cons, alignStep_eq, foldl_alignStep bottom fall_x l]
    simp only [List.map_cons, List.sum_cons, List.countP_cons, Prod.mk.injEq]
    constructor
    · ring
    · omega

lemma countP_split {α : Type} (f g : α → Bool) :
    ∀ l : List α,
      l.countP f = l.countP (fun x => f x && g x) + l.countP (fun x => f x && !g x)
  | [] => by simp
  | x :: l => by
    simp only [List.countP_cons, countP_split f g l]
    cases hf : f x <;> cases hg : g x <;> simp [hf, hg] <;> omega

lemma countP_and_eq_iff {α : Type} (f g : α → Bool) (l : List α) :
    l.countP (fun x => f x && g x) = l.countP f ↔ ∀ x ∈ l, f x = true → g x = true := by
  have hsplit := countP_split f g l
  rw [show (l.countP (fun x => f x && g x) = l.countP f ↔ l.countP (fun x => f x && !g x) = 0)
      from by omega]
  rw [List.countP_eq_zero]
  constructor
  · intro h x hx hf
    have := h x hx
    simp only [hf, Bool.true_and, Bool.not_eq_true'] at this
    simpa using this
  · intro h x hx
    cases hf : f x
    · simp [hf]
    · simp [hf, h x hx hf]

/-- **C1.** The score delta returned by `score_alignment` is the sum of the
per-position contributions (+1 comparable match, −1 comparable mismatch, 0
otherwise), plus a fixed +50 exactly when the perfect flag is set; and the
perfect flag is set exactly when there is at least one comparable position
and every comparable position matches. -/
theorem score_alignment_delta_perfect (falling : List Char) (fall_x : ℤ) (bottom : List Char) :
    (score_alignment falling fall_x bottom).1
        = (falling.enum.map (contrib bottom fall_x)).sum
          + (if (score_alignment falling fall_x bottom).2 then 50 else 0)
    ∧ ((score_alignment falling fall_x bottom).2 = true ↔
        0 < falling.enum.countP (fun p => comparableB bottom fall_x p.1 p.2)
          ∧ ∀ p ∈ falling.enum, comparableB bottom fall_x p.1 p.2 = true →
              p.2 = bottomAt bottom (fall_x + (p.1 : ℤ))) := by
  have hfold := foldl_alignStep bottom fall_x falling.enum 0 0
  have hmatch : matchB bottom fall_x = fun p : ℕ × Char =>
      (fun q : ℕ × Char => comparableB bottom fall_x q.1 q.2) p &&
      (fun q : ℕ × Char => decide (q.2 = bottomAt bottom (fall_x + (q.1 : ℤ)))) p := rfl
  have hiff := countP_and_eq_iff
    (fun q : ℕ × Char => comparableB bottom fall_x q.1 q.2)
    (fun q : ℕ × Char => decide (q.2 = bottomAt bottom (fall_x + (q.1 : ℤ))))
    falling.enum
  rw [← hmatch] at hiff
  simp only [decide_eq_true_eq] at hiff
  unfold score_alignment
  rw [hfold]
  simp only [zero_add]
  have hle : falling.enum.countP (matchB bottom fall_x)
      ≤ falling.enum.countP (fun p => comparableB bottom fall_x p.1 p.2) :=
    List.countP_mono_left (fun x _ h => by
      simp only [matchB, Bool.and_eq_true] at h
      exact h.1)
  constructor
  · split <;> simp
  · simp only [Bool.and_eq_true, decide_eq_true_eq]
    constructor
    · rintro ⟨h1, h2⟩
      exact ⟨by omega, hiff.1 (by omega)⟩
    · rintro ⟨h1, h2⟩
      have := hiff.2 h2
      exact ⟨by omega, by omega⟩

/-- **C8.** The spec's two worked scoring examples: "AAAA" against "AAAA"
at offset 0 is a perfect landing contributing 4 + 50 = 54, and "ATAT"
against "AATT" at offset 0 gives delta 0 and perfect = false. -/
theorem score_alignment_examples :
    score_alignment ['A', 'A', 'A', 'A'] 0 ['A', 'A', 'A', 'A'] = (54, true)
      ∧ score_alignment ['A', 'T', 'A', 'T'] 0 ['A', 'A', 'T', 'T'] = (0, false) := by
  decide

lemma snpChoice_mem_others (base : Char) (p : ℕ) :
    snpChoice base p ∈ NUCLEOTIDES.filter (fun n => n ≠ base) := by
  have hne : (NUCLEOTIDES.filter (fun n => n ≠ base)) ≠ [] := by
    by_cases hT : base = 'T'
    · subst hT
      decide
    · intro hnil
      have : 'T' ∈ NUCLEOTIDES.filter (fun n => n ≠ base) := by
        rw [List.mem_filter]
        exact ⟨by decide, by simpa using Ne.symm (by simpa using hT)⟩
      rw [hnil] at this
      exact absurd this (List.not_mem_nil 'T')
  have hlen : 0 < (NUCLEOTIDES.filter (fun n => n ≠ base)).length :=
    List.length_pos.mpr hne
  have hlt : p % (NUCLEOTIDES.filter (fun n => n ≠ base)).length
      < (NUCLEOTIDES.filter (fun n => n ≠ base)).length := Nat.mod_lt _ hlen
  unfold snpChoice
  rw [List.getD_eq_getElem _ _ hlt]
  exact List.getElem_mem hlt

lemma snpChoice_ne (base : Char) (p : ℕ) : snpChoice base p ≠ base := by
  have h := snpChoice_mem_others base p
  rw [List.mem_filter] at h
  simpa using h.2

lemma snpChoice_mem (base : Char) (p : ℕ) : snpChoice base p ∈ NUCLEOTIDES := by
  have h := snpChoice_mem_others base p
  rw [List.mem_filter] at h
  exact h.1

/-- The spec's wording of one symbol's mutation outcome, for the refinement
proof: a single uniform draw `r`, cumulative thresholds 1% / 2% / 3%
selecting deletion / substitution / insertion / no change. -/
def mutationOutcomeSpec (base : Char) (r : ℚ) (p : ℕ) : List Char :=
  if r < 1/100 then []
  else if r < 2/100 then [snpChoice base p]
  else if r < 3/100 then [base, nucChoice p]
  else [base]

lemma mutateFrom_spec (roll : ℕ → ℚ) (pick : ℕ → ℕ) :
    ∀ (seg : List Char) (i : ℕ),
      (mutateFrom roll pick i seg).1
          = (List.enumFrom i seg).flatMap
              (fun p => mutationOutcomeSpec p.2 (roll p.1) (pick p.1))
        ∧ (mutateFrom roll pick i seg).2.deletions
          = (List.enumFrom i seg).countP (fun p => decide (roll p.1 < 1/100))
        ∧ (mutateFrom roll pick i seg).2.snps
          = (List.enumFrom i seg).countP
              (fun p => decide (1/100 ≤ roll p.1) && decide (roll p.1 < 2/100))
        ∧ (mutateFrom roll pick i seg).2.insertions
          = (List.enumFrom i seg).countP
              (fun p => decide (2/100 ≤ roll p.1) && decide (roll p.1 < 3/100))
  | [], i => by simp [mutateFrom]
  | base :: rest, i => by
    obtain ⟨h1, h2, h3, h4⟩ := mutateFrom_spec roll pick rest (i + 1)
    rw [List.enumFrom_cons]
    by_cases hA : roll i < 1/100
    · have hA1 : ¬ (1/100 : ℚ) ≤ roll i := not_le.mpr hA
      have hA2 : ¬ (2/100 : ℚ) ≤ roll i := not_le.mpr (lt_trans hA (by norm_num))
      simp [mutateFrom, mutationOutcomeSpec, hA, hA1, hA2, h1, h2, h3, h4, -one_div]
    · by_cases hB : roll i < 2/100
      · have hB1 : (1/100 : ℚ) ≤ roll i := not_lt.mp hA
        have hB2 : ¬ (2/100 : ℚ) ≤ roll i := not_le.mpr hB
        simp [mutateFrom, mutationOutcomeSpec, hA, hB, hB1, hB2, h1, h2, h3, h4, -one_div]
      · by_cases hC : roll i < 3/100
        · have hC1 : (2/100 : ℚ) ≤ roll i := not_lt.mp hB
          simp [mutateFrom, mutationOutcomeSpec, hA, hB, hC, hC1, h1, h2, h3, h4, -one_div]
        · simp [mutateFrom, mutationOutcomeSpec, hA, hB, hC, h1, h2, h3, h4, -one_div]

lemma mutateFrom_length_counts (roll : ℕ → ℚ) (pick : ℕ → ℕ) :
    ∀ (seg : List Char) (i : ℕ),
      (mutateFrom roll pick i seg).1.length + (mutateFrom roll pick i seg).2.deletions
          = seg.length + (mutateFrom roll pick i seg).2.insertions
        ∧ (mutateFrom roll pick i seg).2.deletions + (mutateFrom roll pick i seg).2.snps
            + (mutateFrom roll pick i seg).2.insertions ≤ seg.length
  | [], i => by simp [mutateFrom]
  | base :: rest, i => by
    obtain ⟨ih1, ih2⟩ := mutateFrom_length_counts roll pick rest (i + 1)
    by_cases hA : roll i < 1/100
    · simp only [mutateFrom, if_pos hA, List.length_cons]
      omega
    · by_cases hB : roll i < 2/100
      · simp only [mutateFrom, if_neg hA, if_pos hB, List.length_cons]
        omega
      · by_cases hC : roll i < 3/100
        · simp only [mutateFrom, if_neg hA, if_neg hB, if_pos hC, List.length_cons]
          omega
        · simp only [mutateFrom, if_neg hA, if_neg hB, if_neg hC, List.length_cons]
          omega

/-- **C2.** Under the random-source oracle, for any window length at most
the reference's length the generated segment is non-empty and the window
start index is at most `|R| - L`. -/
theorem new_falling_segment_nonempty_start_le (base_seq : List Char) (seg_len : ℕ)
    (startR : ℕ) (roll : ℕ → ℚ) (pick : ℕ → ℕ) (finalPick : ℕ)
    (h : seg_len ≤ base_seq.length) :
    (new_falling_segment base_seq seg_len startR roll pick finalPick).1 ≠ []
      ∧ (new_falling_segment base_seq seg_len startR roll pick finalPick).2.1
          ≤ base_seq.length - seg_len := by
  unfold new_falling_segment
  constructor
  · by_cases hm : (mutateFrom roll pick 0 (window base_seq seg_len startR)).1 = []
    · simp only [hm, if_pos rfl]
      simp
    · simp only [if_neg hm]
      exact hm
  · unfold windowStart
    by_cases hw : seg_len ≥ base_seq.length
    · simp only [if_pos hw]
      exact Nat.zero_le _
    · simp only [if_neg hw]
      have : startR % (base_seq.length - seg_len + 1) < base_seq.length - seg_len + 1 :=
        Nat.mod_lt _ (Nat.succ_pos _)
      omega

/-- Witness for C2 at a concrete reference, window length and oracle. -/
theorem new_falling_segment_nonempty_start_le_witness :
    (new_falling_segment ['A', 'T', 'G'] 2 5 (fun _ => 1/2) (fun _ => 0) 0).1 ≠ []
      ∧ (new_falling_segment ['A', 'T', 'G'] 2 5 (fun _ => 1/2) (fun _ => 0) 0).2.1
          ≤ (['A', 'T', 'G'] : List Char).length - 2 :=
  new_falling_segment_nonempty_start_le ['A', 'T', 'G'] 2 5 (fun _ => 1/2) (fun _ => 0) 0
    (by decide)

lemma window_length (base_seq : List Char) (seg_len startR : ℕ) :
    (window base_seq seg_len startR).length = min seg_len base_seq.length := by
  unfold window windowStart
  by_cases hw : seg_len ≥ base_seq.length
  · simp only [if_pos hw]
    omega
  · simp only [if_neg hw, List.length_take, List.length_drop]
    have : startR % (base_seq.length - seg_len + 1) < base_seq.length - seg_len + 1 :=
      Nat.mod_lt _ (Nat.succ_pos _)
    omega

/-- **C10.** The mutation counts of a generated segment total at most the
window length `W = min seg_len |R|` (each window symbol receives at most
one edit), and the segment's length is `W - deletions + insertions`, forced
up to 1 when that quantity is 0. -/
theorem new_falling_segment_counts_length (base_seq : List Char) (seg_len startR : ℕ)
    (roll : ℕ → ℚ) (pick : ℕ → ℕ) (finalPick : ℕ) :
    (new_falling_segment base_seq seg_len startR roll pick finalPick).2.2.deletions
        + (new_falling_segment base_seq seg_len startR roll pick finalPick).2.2.snps
        + (new_falling_segment base_seq seg_len startR roll pick finalPick).2.2.insertions
        ≤ min seg_len base_seq.length
      ∧ (new_falling_segment base_seq seg_len startR roll pick finalPick).1.length
        = max 1 (min seg_len base_seq.length
            + (new_falling_segment base_seq seg_len startR roll pick finalPick).2.2.insertions
            - (new_falling_segment base_seq seg_len startR roll pick finalPick).2.2.deletions) := by
  obtain ⟨hlen, hle⟩ :=
    mutateFrom_length_counts roll pick (window base_seq seg_len startR) 0
  rw [window_length] at hlen hle
  unfold new_falling_segment
  by_cases hm : (mutateFrom roll pick 0 (window base_seq seg_len startR)).1 = []
  · rw [hm] at hlen
    simp only [hm, if_pos rfl]
    constructor
    · exact hle
    · simp only [List.length_nil] at hlen
      simp
      omega
  · have hpos : 0 < (mutateFrom roll pick 0 (window base_seq seg_len startR)).1.length :=
      List.length_pos.mpr hm
    simp only [if_neg hm]
    exact ⟨hle, by omega⟩

/-- **C7.** Each window symbol consumes one uniform draw; the segment is
the concatenation of per-symbol outcomes selected by the cumulative
thresholds 1% / 2% / 3% (deletion / substitution / insertion / unchanged),
the returned counts are exactly the number of draws in each band, and a
substituted symbol is an alphabet symbol different from the original. -/
theorem mutation_per_symbol_thresholds (roll : ℕ → ℚ) (pick : ℕ → ℕ)
    (seg : List Char) (i : ℕ) :
    (mutateFrom roll pick i seg).1
        = (List.enumFrom i seg).flatMap
            (fun p => mutationOutcomeSpec p.2 (roll p.1) (pick p.1))
      ∧ (mutateFrom roll pick i seg).2.deletions
        = (List.enumFrom i seg).countP (fun p => decide (roll p.1 < 1/100))
      ∧ (mutateFrom roll pick i seg).2.snps
        = (List.enumFrom i seg).countP
            (fun p => decide (1/100 ≤ roll p.1) && decide (roll p.1 < 2/100))
      ∧ (mutateFrom roll pick i seg).2.insertions
        = (List.enumFrom i seg).countP
            (fun p => decide (2/100 ≤ roll p.1) && decide (roll p.1 < 3/100))
      ∧ ∀ (base : Char) (p : ℕ), snpChoice base p ≠ base ∧ snpChoice base p ∈ NUCLEOTIDES := by
  obtain ⟨h1, h2, h3, h4⟩ := mutateFrom_spec roll pick seg i
  exact ⟨h1, h2, h3, h4, fun base p => ⟨snpChoice_ne base p, snpChoice_mem base p⟩⟩

/-! ### Leaderboard store -/

/-- One persisted leaderboard record `{name, score}` (well-formed case,
used by `sorted_leaderboard`, which the game only feeds strings). -/
structure LBEntry where
  name : String
  score : ℤ
  deriving Repr, DecidableEq

/-- Python's `item["name"].lower()`: lower-case each character (as a
character list, which Python compares lexicographically by code point). -/
def pyLower (s : String) : List Char := s.data.map Char.toLower

/-- The sort key order of `sorted_leaderboard`'s
`key=lambda item: (-item["score"], item["name"].lower())`: higher score
first, ties by case-insensitive ascending name. -/
def rankLE (a b : LBEntry) : Prop :=
  b.score < a.score ∨ (a.score = b.score ∧ pyLower a.name ≤ pyLower b.name)

instance : DecidableRel rankLE := fun a b => by
  unfold rankLE
  infer_instance

instance rankLE_total : IsTotal LBEntry rankLE := by
  constructor
  intro a b
  rcases lt_trichotomy a.score b.score with h | h | h
  · exact Or.inr (Or.inl h)
  · rcases le_total (pyLower a.name) (pyLower b.name) with hn | hn
    · exact Or.inl (Or.inr ⟨h, hn⟩)
    · exact Or.inr (Or.inr ⟨h.symm, hn⟩)
  · exact Or.inl (Or.inl h)

instance rankLE_trans : IsTrans LBEntry rankLE := by
  constructor
  intro a b c hab hbc
  rcases hab with hab | ⟨hab, hab'⟩
  · rcases hbc with hbc | ⟨hbc, _⟩
    · exact Or.inl (lt_trans hbc hab)
    · exact Or.inl (hbc ▸ hab)
  · rcases hbc with hbc | ⟨hbc, hbc'⟩
    · exact Or.inl (by omega)
    · exact Or.inr ⟨by omega, le_trans hab' hbc'⟩

/-- `sorted_leaderboard(entries)` (source lines 130–131): Python's
`sorted` is a stable sort by the key order `rankLE`; stable insertion sort
is extensionally that function. -/
def sorted_leaderboard (entries : List LBEntry) : List LBEntry :=
  List.insertionSort rankLE entries

lemma filter_orderedInsert_not (p : LBEntry → Bool) (a : LBEntry)
    (ha : p a = false) :
    ∀ l : List LBEntry, (l.orderedInsert rankLE a).filter p = l.filter p
  | [] => by simp [ha]
  | b :: l => by
    unfold List.orderedInsert
    by_cases hr : rankLE a b
    · rw [if_pos hr]
      simp [ha]
    · rw [if_neg hr, List.filter_cons, List.filter_cons,
        filter_orderedInsert_not p a ha l]

lemma filter_orderedInsert_key (p : LBEntry → Bool) (a : LBEntry)
    (hpa : p a = true)
    (hkey : ∀ b, p b = true → b.score = a.score ∧ pyLower b.name = pyLower a.name) :
    ∀ l : List LBEntry, (l.orderedInsert rankLE a).filter p = a :: l.filter p
  | [] => by simp [hpa]
  | b :: l => by
    unfold List.orderedInsert
    by_cases hr : rankLE a b
    · rw [if_pos hr]
      simp [hpa]
    · rw [if_neg hr]
      have hb : p b = false := by
        by_contra hb
        rw [Bool.not_eq_false] at hb
        obtain ⟨hs, hn⟩ := hkey b hb
        exact hr (Or.inr ⟨hs.symm, le_of_eq hn.symm⟩)
      rw [List.filter_cons, List.filter_cons, filter_orderedInsert_key p a hpa hkey l]
      simp [hb]

lemma sorted_leaderboard_stable (p : LBEntry → Bool)
    (hkey : ∀ b b', p b = true → p b' = true →
      b.score = b'.score ∧ pyLower b.name = pyLower b'.name) :
    ∀ X : List LBEntry, (sorted_leaderboard X).filter p = X.filter p
  | [] => rfl
  | a :: X => by
    have ih := sorted_leaderboard_stable p hkey X
    show ((List.insertionSort rankLE X).orderedInsert rankLE a).filter p = _
    by_cases hpa : p a = true
    · rw [filter_orderedInsert_key p a hpa (fun b hb => hkey b a hb hpa)]
      rw [List.filter_cons, if_pos (by simp [hpa])]
      exact congrArg _ ih
    · have hpa' : p a = false := by simpa using hpa
      rw [filter_orderedInsert_not p a hpa']
      rw [List.filter_cons, if_neg (by simp [hpa'])]
      exact ih

/-- **C4.** `sorted_leaderboard` sorts by descending score with ties broken
by case-insensitive ascending name, is stable (entries equal under that key
keep their relative order), is idempotent, and orders the spec's example
`[("bob",10), ("amy",10)]` as `[("amy",10), ("bob",10)]`. -/
theorem leaderboard_rank_properties :
    (∀ X : List LBEntry, List.Sorted rankLE (sorted_leaderboard X))
      ∧ (∀ X : List LBEntry, sorted_leaderboard (sorted_leaderboard X) = sorted_leaderboard X)
      ∧ (∀ (X : List LBEntry) (s : ℤ) (n : List Char),
          (sorted_leaderboard X).filter
              (fun e => decide (e.score = s) && decide (pyLower e.name = n))
            = X.filter (fun e => decide (e.score = s) && decide (pyLower e.name = n)))
      ∧ sorted_leaderboard [⟨"bob", 10⟩, ⟨"amy", 10⟩] = [⟨"amy", 10⟩, ⟨"bob", 10⟩] := by
  refine ⟨?_, ?_, ?_, ?_⟩
  · intro X
    exact List.sorted_insertionSort rankLE X
  · intro X
    exact (List.sorted_insertionSort rankLE X).insertionSort_eq
  · intro X s n
    refine sorted_leaderboard_stable _ ?_ X
    intro b b' hb hb'
    simp only [Bool.and_eq_true, decide_eq_true_eq] at hb hb'
    exact ⟨hb.1.trans hb'.1.symm, hb.2.trans hb'.2.symm⟩
  · decide

/-! ### `load_leaderboard` and the persisted file

`load_leaderboard` (source lines 110–122) opens the file, parses JSON, and
converts list items.  JSON values are modelled by `JVal` (numbers as
integers), the observable file state by `FileState`, and Python exceptions
by `Except PyErr`: `.error e` is an exception propagating out of
`load_leaderboard`; the source's `except (OSError, ValueError)` catches
exactly those two. -/

/-- A parsed JSON value (JSON numbers modelled as integers). -/
inductive JVal where
  | jnull
  | jbool (b : Bool)
  | jint (n : ℤ)
  | jstr (s : String)
  | jarr (items : List JVal)
  | jobj (fields : List (String × JVal))

/-- A Python exception class relevant to `load_leaderboard`. -/
inductive PyErr where
  | valueError
  | typeError
  deriving Repr, DecidableEq

/-- Observable state of the leaderboard file: missing or unreadable
(`open`/read raises `OSError`), unparseable (`json.load` raises
`ValueError`), or parsed to a JSON value. -/
inductive FileState where
  | missing
  | ioError
  | unparseable
  | parsed (v : JVal)

/-- Python `dict.get(k, dflt)` on a JSON object's fields. -/
def dictGet (fields : List (String × JVal)) (k : String) (dflt : JVal) : JVal :=
  match fields.find? (fun f => f.1 == k) with
  | some f => f.2
  | none => dflt

/-- The numeric value of a digit string. -/
def digitsToNat (cs : List Char) : ℕ :=
  cs.foldl (fun n c => n * 10 + (c.toNat - '0'.toNat)) 0

/-- Python `int(s)` on a string: an optional sign followed by at least one
digit parses, anything else raises `ValueError`. -/
def pyIntOfStr (s : String) : Option ℤ :=
  match s.data with
  | [] => none
  | '-' :: rest =>
    if rest ≠ [] ∧ rest.all (fun c => c.isDigit) then some (-(digitsToNat rest : ℤ))
    else none
  | '+' :: rest =>
    if rest ≠ [] ∧ rest.all (fun c => c.isDigit) then some (digitsToNat rest : ℤ)
    else none
  | cs =>
    if cs.all (fun c => c.isDigit) then some (digitsToNat cs : ℤ)
    else none

/-- Python `int(x)` on a JSON value: ints pass through, bools become 0/1,
strings are parsed (`ValueError` when not an integer literal), and null /
lists / objects raise `TypeError`. -/
def pyInt : JVal → Except PyErr ℤ
  | .jint n => .ok n
  | .jbool b => .ok (if b then 1 else 0)
  | .jstr s =>
    match pyIntOfStr s with
    | some n => .ok n
    | none => .error .valueError
  | .jnull => .error .typeError
  | .jarr _ => .error .typeError
  | .jobj _ => .error .typeError

/-- One converted entry of the comprehension at source lines 115–119: the
`name` field is taken verbatim (no conversion), the `score` field goes
through `int(...)`. -/
structure RawEntry where
  name : JVal
  score : ℤ

/-- The list comprehension at source lines 115–119: non-dict items are
skipped; the first exception from `int(...)` aborts the comprehension. -/
def convEntries : List JVal → Except PyErr (List RawEntry)
  | [] => .ok []
  | item :: rest =>
    match item with
    | .jobj fields =>
      match pyInt (dictGet fields "score" (.jint 0)) with
      | .error e => .error e
      | .ok sc =>
        match convEntries rest with
        | .error e => .error e
        | .ok es => .ok (⟨dictGet fields "name" (.jstr ""), sc⟩ :: es)
    | _ => convEntries rest

/-- `load_leaderboard()` (source lines 110–122): `OSError` and
`ValueError` are caught and yield `[]`; a non-list top level yields `[]`;
a `TypeError` from `int(...)` is *not* caught and propagates. -/
def load_leaderboard : FileState → Except PyErr (List RawEntry)
  | .missing => .ok []
  | .ioError => .ok []
  | .unparseable => .ok []
  | .parsed v =>
    match v with
    | .jarr items =>
      match convEntries items with
      | .ok es => .ok es
      | .error .valueError => .ok []
      | .error .typeError => .error .typeError
    | _ => .ok []

/-- **C3 counterexample.** Two malformed persisted contents on which the
claim fails: an entry whose score is JSON `null` makes `load_leaderboard`
raise an uncaught `TypeError` (Python `int(None)`), and an entry whose
name is a number is returned as a non-empty collection rather than
emptied. -/
theorem load_leaderboard_claim_counterexample :
    load_leaderboard (.parsed (.jarr [.jobj [("name", .jstr "x"), ("score", .jnull)]]))
        = .error .typeError
      ∧ load_leaderboard (.parsed (.jarr [.jobj [("name", .jint 5), ("score", .jint 3)]]))
        = .ok [⟨.jint 5, 3⟩] := by
  constructor <;> rfl

/-- **C3 (amended).** `load_leaderboard` returns the empty collection,
without raising, on a missing or unreadable file, on unparseable content,
and on any parsed top-level value that is not a list; a `ValueError` inside
the entry conversion (a string score that is not an integer literal) also
yields the empty collection, and a successful conversion is returned as
is.  However an entry whose score field is null, a list, or an object
raises an uncaught `TypeError`, and non-string name fields are kept
verbatim rather than rejected. -/
theorem load_leaderboard_amended (s : String) (fields : List (String × JVal))
    (n : ℤ) (b : Bool) (items : List JVal) :
    load_leaderboard .missing = .ok []
      ∧ load_leaderboard .ioError = .ok []
      ∧ load_leaderboard .unparseable = .ok []
      ∧ load_leaderboard (.parsed .jnull) = .ok []
      ∧ load_leaderboard (.parsed (.jbool b)) = .ok []
      ∧ load_leaderboard (.parsed (.jint n)) = .ok []
      ∧ load_leaderboard (.parsed (.jstr s)) = .ok []
      ∧ load_leaderboard (.parsed (.jobj fields)) = .ok []
      ∧ (convEntries items = .error .valueError →
          load_leaderboard (.parsed (.jarr items)) = .ok [])
      ∧ (∀ es, convEntries items = .ok es →
          load_leaderboard (.parsed (.jarr items)) = .ok es)
      ∧ load_leaderboard (.parsed (.jarr [.jobj [("score", .jstr "abc")]])) = .ok []
      ∧ load_leaderboard (.parsed (.jarr [.jobj [("score", .jnull)]]))
          = .error .typeError := by
  refine ⟨rfl, rfl, rfl, rfl, rfl, rfl, rfl, rfl, ?_, ?_, rfl, rfl⟩
  · intro h
    simp only [load_leaderboard, h]
  · intro es h
    simp only [load_leaderboard, h]

/-- Witness for the amended C3 at a concrete well-formed file content. -/
theorem load_leaderboard_amended_witness :
    load_leaderboard (.parsed (.jarr [.jobj [("name", .jstr "x"), ("score", .jint 3)]]))
      = .ok [⟨.jstr "x", 3⟩] :=
  (load_leaderboard_amended "" [] 0 false
      [.jobj [("name", .jstr "x"), ("score", .jint 3)]]).2.2.2.2.2.2.2.2.2.1
    [⟨.jstr "x", 3⟩] (by rfl)

/-! ### Game session state machine

The modelled fragment of `game()` (source lines 222–366) is the state the
claims speak about: falling segment, horizontal offset, edit cursor, input
mode, remaining edit budget, score and multiplier.  The vertical position
and the wall-clock timing fields (`fall_y`, `last_tick`, `fall_delay`,
`base_fall_delay`) are real-time/float state outside this fragment; the
landing event (the `fall_y >= bottom_y` branch) is modelled as the
`landingStep` transition, keystroke dispatch as `handleKey`. -/

/-- The two input modes of the session (`mode = "move" | "edit_top"`). -/
inductive Mode where
  | move
  | edit_top
  deriving Repr, DecidableEq

/-- One keystroke as dispatched by the handler at source lines 311–346:
`up` = KEY_UP, `confirm` = ENTER/ESC, arrows, `space`, `backspace` =
BACKSPACE/DEL, `letter c` = one of the eight keys a/A/t/T/g/G/c/C, and
`other` for any remaining key. -/
inductive GKey where
  | up
  | confirm
  | left
  | right
  | down
  | space
  | backspace
  | letter (c : Char)
  | other
  deriving Repr, DecidableEq

/-- The session state carried across ticks by `game()`. -/
structure GameState where
  falling_seq : List Char
  fall_x : ℤ
  cursor : ℤ
  mode : Mode
  edits_remaining : ℤ
  score : ℤ
  multiplier : ℤ
  deriving Repr, DecidableEq

/-- `insert_space(seq, cursor)` (source lines 59–60).  Python's
`list.insert` and `List.insertIdx` agree on every index in `[0, len]`;
the game only calls it with the edit cursor in `[0, len - 1]`. -/
def insert_space (seq : List Char) (cursor : ℤ) : List Char :=
  seq.insertIdx cursor.toNat ' '

/-- The keystroke dispatch of `game()` (source lines 311–346), excluding
the quit key (which leaves the loop) and the timing-only effect of
KEY_DOWN in move mode (`fall_delay`, not modelled). -/
def handleKey (play_width : ℤ) (st : GameState) (k : GKey) : GameState :=
  match k with
  | .up =>
    { st with mode := .edit_top,
              cursor := clamp st.cursor 0 ((st.falling_seq.length : ℤ) - 1) }
  | .confirm => { st with mode := .move }
  | .left =>
    match st.mode with
    | .move =>
      { st with fall_x := clamp (st.fall_x - 1) 0 (play_width - st.falling_seq.length) }
    | .edit_top =>
      { st with cursor := clamp (st.cursor - 1) 0 ((st.falling_seq.length : ℤ) - 1) }
  | .right =>
    match st.mode with
    | .move =>
      { st with fall_x := clamp (st.fall_x + 1) 0 (play_width - st.falling_seq.length) }
    | .edit_top =>
      { st with cursor := clamp (st.cursor + 1) 0 ((st.falling_seq.length : ℤ) - 1) }
  | .down => st
  | .space =>
    match st.mode with
    | .move => st
    | .edit_top =>
      if 0 < st.edits_remaining ∧ (st.falling_seq.length : ℤ) < play_width then
        let seq := insert_space st.falling_seq st.cursor
        { st with falling_seq := seq,
                  fall_x := clamp st.fall_x 0 (play_width - seq.length),
                  edits_remaining := st.edits_remaining - 1 }
      else st
  | .backspace =>
    match st.mode with
    | .move => st
    | .edit_top =>
      if 0 < st.edits_remaining ∧ st.falling_seq ≠ [] then
        let seq := st.falling_seq.eraseIdx st.cursor.toNat
        { st with falling_seq := seq,
                  fall_x := clamp st.fall_x 0 (play_width - seq.length),
                  cursor := clamp st.cursor 0 ((seq.length : ℤ) - 1),
                  edits_remaining := st.edits_remaining - 1 }
      else st
  | .letter c =>
    match st.mode with
    | .move => st
    | .edit_top =>
      if 0 < st.edits_remaining ∧ st.falling_seq ≠ [] then
        let new_base := c.toUpper
        if new_base ∈ NUCLEOTIDES ∧ st.falling_seq.getD st.cursor.toNat ' ' ≠ new_base then
          { st with falling_seq := st.falling_seq.set st.cursor.toNat new_base,
                    edits_remaining := st.edits_remaining - 1 }
        else st
      else st
  | .other => st

/-- The landing resolution of `game()` (source lines 278–299): score the
alignment, add `delta * multiplier`, end the session when `delta < 0`
(returning `none`), otherwise double or reset the multiplier, generate the
next round's segment and re-centre it.  Returns the updated score together
with the continuing state, if any. -/
def landingStep (play_width : ℤ) (bottom_seq base_seq : List Char) (seg_len startR : ℕ)
    (roll : ℕ → ℚ) (pick : ℕ → ℕ) (finalPick : ℕ) (st : GameState) :
    ℤ × Option GameState :=
  let dp := score_alignment st.falling_seq st.fall_x bottom_seq
  let score' := st.score + dp.1 * st.multiplier
  if dp.1 < 0 then (score', none)
  else
    let mult' := if dp.2 then st.multiplier * 2 else 1
    let r := new_falling_segment base_seq seg_len startR roll pick finalPick
    (score',
      some { falling_seq := r.1,
             fall_x := centered_fall_x play_width r.1.length,
             cursor := 0,
             mode := .move,
             edits_remaining :=
               (r.2.2.deletions : ℤ) + r.2.2.snps + r.2.2.insertions,
             score := score',
             multiplier := mult' })

/-- **C5.** At a landing the session adds `delta * multiplier` (with the
pre-landing multiplier) to the score; when the session continues the
multiplier becomes `2 * multiplier` after a perfect landing and `1`
otherwise, and the session ends exactly when `delta < 0`. -/
theorem landing_score_multiplier (play_width : ℤ) (bottom_seq base_seq : List Char)
    (seg_len startR : ℕ) (roll : ℕ → ℚ) (pick : ℕ → ℕ) (finalPick : ℕ)
    (st : GameState) :
    (landingStep play_width bottom_seq base_seq seg_len startR roll pick finalPick st).1
        = st.score + (score_alignment st.falling_seq st.fall_x bottom_seq).1 * st.multiplier
      ∧ Option.map GameState.multiplier
          (landingStep play_width bottom_seq base_seq seg_len startR roll pick finalPick st).2
        = (if (score_alignment st.falling_seq st.fall_x bottom_seq).1 < 0 then none
           else some (if (score_alignment st.falling_seq st.fall_x bottom_seq).2
             then st.multiplier * 2 else 1))
      ∧ Option.map GameState.score
          (landingStep play_width bottom_seq base_seq seg_len startR roll pick finalPick st).2
        = (if (score_alignment st.falling_seq st.fall_x bottom_seq).1 < 0 then none
           else some (st.score
             + (score_alignment st.falling_seq st.fall_x bottom_seq).1 * st.multiplier)) := by
  unfold landingStep
  by_cases hneg : (score_alignment st.falling_seq st.fall_x bottom_seq).1 < 0
  · simp [hneg]
  · simp [hneg]

/-- The edit-cursor invariant of the spec: the cursor lies in
`[0, segment length - 1]`, forced to 0 when the segment is empty
(equivalently, `0 ≤ cursor ≤ max 0 (length - 1)`). -/
def cursorInv (st : GameState) : Prop :=
  0 ≤ st.cursor ∧ st.cursor ≤ max 0 ((st.falling_seq.length : ℤ) - 1)

instance (st : GameState) : Decidable (cursorInv st) := by
  unfold cursorInv
  infer_instance

/-- The clamped-offset invariant actually enforced by the session:
`fall_x` lies in `[0, max 0 (play_width - segment length)]`. -/
def offsetInv (play_width : ℤ) (st : GameState) : Prop :=
  0 ≤ st.fall_x ∧ st.fall_x ≤ max 0 (play_width - st.falling_seq.length)

instance (play_width : ℤ) (st : GameState) : Decidable (offsetInv play_width st) := by
  unfold offsetInv
  infer_instance

lemma clamp_bounds (v lo hi : ℤ) : lo ≤ clamp v lo hi ∧ clamp v lo hi ≤ max lo hi := by
  unfold clamp
  omega

lemma centered_fall_x_bounds (play_width len : ℤ) :
    0 ≤ centered_fall_x play_width len
      ∧ centered_fall_x play_width len ≤ max 0 (play_width - len) := by
  unfold centered_fall_x clamp
  omega

lemma cursor_toNat_lt (st : GameState) (h : cursorInv st) (hne : st.falling_seq ≠ []) :
    st.cursor.toNat < st.falling_seq.length := by
  obtain ⟨h0, h1⟩ := h
  have : 0 < st.falling_seq.length := List.length_pos.mpr hne
  omega

/-- **C9.** The edit-cursor invariant is preserved by every keystroke and
re-established by every landing that continues the session. -/
theorem edit_cursor_invariant (play_width : ℤ) (st : GameState)
    (bottom_seq base_seq : List Char) (seg_len startR : ℕ) (roll : ℕ → ℚ)
    (pick : ℕ → ℕ) (finalPick : ℕ) (h : cursorInv st) :
    (∀ k, cursorInv (handleKey play_width st k))
      ∧ (∀ st',
          (landingStep play_width bottom_seq base_seq seg_len startR roll pick
              finalPick st).2 = some st' →
          cursorInv st') := by
  constructor
  · intro k
    obtain ⟨h0, h1⟩ := h
    cases k with
    | up =>
      have := clamp_bounds st.cursor 0 ((st.falling_seq.length : ℤ) - 1)
      simp only [handleKey, cursorInv, clamp] at *
      omega
    | confirm =>
      simp only [handleKey, cursorInv]
      exact ⟨h0, h1⟩
    | left =>
      cases hmode : st.mode with
      | move =>
        simp only [handleKey, cursorInv, hmode]
        exact ⟨h0, h1⟩
      | edit_top =>
        simp only [handleKey, cursorInv, hmode, clamp]
        omega
    | right =>
      cases hmode : st.mode with
      | move =>
        simp only [handleKey, cursorInv, hmode]
        exact ⟨h0, h1⟩
      | edit_top =>
        simp only [handleKey, cursorInv, hmode, clamp]
        omega
    | down =>
      simp only [handleKey]
      exact ⟨h0, h1⟩
    | space =>
      cases hmode : st.mode with
      | move =>
        simp only [handleKey, cursorInv, hmode]
        exact ⟨h0, h1⟩
      | edit_top =>
        simp only [handleKey, hmode]
        by_cases hg : 0 < st.edits_remaining ∧ (st.falling_seq.length : ℤ) < play_width
        · rw [if_pos hg]
          have hlen : (insert_space st.falling_seq st.cursor).length
              = st.falling_seq.length + 1 := by
            apply List.length_insertIdx
            omega
          simp only [cursorInv, hlen]
          omega
        · rw [if_neg hg]
          exact ⟨h0, h1⟩
    | backspace =>
      cases hmode : st.mode with
      | move =>
        simp only [handleKey, cursorInv, hmode]
        exact ⟨h0, h1⟩
      | edit_top =>
        simp only [handleKey, hmode]
        by_cases hg : 0 < st.edits_remaining ∧ st.falling_seq ≠ []
        · rw [if_pos hg]
          simp only [cursorInv, clamp]
          omega
        · rw [if_neg hg]
          exact ⟨h0, h1⟩
    | letter c =>
      cases hmode : st.mode with
      | move =>
        simp only [handleKey, cursorInv, hmode]
        exact ⟨h0, h1⟩
      | edit_top =>
        simp only [handleKey, hmode]
        by_cases hg : 0 < st.edits_remaining ∧ st.falling_seq ≠ []
        · rw [if_pos hg]
          by_cases hs : c.toUpper ∈ NUCLEOTIDES
              ∧ st.falling_seq.getD st.cursor.toNat ' ' ≠ c.toUpper
          · rw [if_pos hs]
            simp only [cursorInv, List.length_set]
            omega
          · rw [if_neg hs]
            exact ⟨h0, h1⟩
        · rw [if_neg hg]
          exact ⟨h0, h1⟩
    | other =>
      simp only [handleKey]
      exact ⟨h0, h1⟩
  · intro st' hst'
    unfold landingStep at hst'
    by_cases hneg : (score_alignment st.falling_seq st.fall_x bottom_seq).1 < 0
    · rw [if_pos hneg] at hst'
      simp at hst'
    · rw [if_neg hneg] at hst'
      simp only [Option.some.injEq] at hst'
      rw [← hst']
      simp only [cursorInv]
      omega

/-- Witness for C9 at a concrete state and keystroke. -/
theorem edit_cursor_invariant_witness :
    cursorInv (handleKey 10 ⟨['A', 'T'], 0, 1, .edit_top, 2, 0, 1⟩ GKey.backspace) :=
  (edit_cursor_invariant 10 ⟨['A', 'T'], 0, 1, .edit_top, 2, 0, 1⟩ [] [] 0 0
      (fun _ => 1/2) (fun _ => 0) 0 (by decide)).1 GKey.backspace

/-- **C6 counterexample.** At the smallest permitted terminal
(`play_width = 18`) the round's window is the whole 18-symbol reference;
a draw stream that lands every symbol in the insertion band (e.g. constant
0.025) produces a 36-symbol segment, and the new-round placement clamps
the offset to 0 with `offset + length = 36 > 18`: the claimed invariant
`offset + segment length ≤ play-field width` fails after a new-round
segment placement. -/
theorem offset_invariant_counterexample :
    ¬ (0 ≤ centered_fall_x 18
          ((new_falling_segment
              ['A', 'A', 'A', 'A', 'A', 'A', 'A', 'A', 'A', 'A', 'A', 'A', 'A', 'A', 'A',
                'A', 'A', 'A'] 20 0 (fun _ => 1/40) (fun _ => 0) 0).1.length : ℤ)
        ∧ centered_fall_x 18
            ((new_falling_segment
                ['A', 'A', 'A', 'A', 'A', 'A', 'A', 'A', 'A', 'A', 'A', 'A', 'A', 'A', 'A',
                  'A', 'A', 'A'] 20 0 (fun _ => 1/40) (fun _ => 0) 0).1.length : ℤ)
          + ((new_falling_segment
                ['A', 'A', 'A', 'A', 'A', 'A', 'A', 'A', 'A', 'A', 'A', 'A', 'A', 'A', 'A',
                  'A', 'A', 'A'] 20 0 (fun _ => 1/40) (fun _ => 0) 0).1.length : ℤ)
          ≤ 18) := by
  have h1 : ¬ ((1 : ℚ)/40 < 1/100) := by norm_num
  have h2 : ¬ ((1 : ℚ)/40 < 2/100) := by norm_num
  have h3 : ((1 : ℚ)/40 < 3/100) := by norm_num
  have hlen : (new_falling_segment
      ['A', 'A', 'A', 'A', 'A', 'A', 'A', 'A', 'A', 'A', 'A', 'A', 'A', 'A', 'A',
        'A', 'A', 'A'] 20 0 (fun _ => 1/40) (fun _ => 0) 0).1.length = 36 := by
    simp [new_falling_segment, window, windowStart, mutateFrom, h1, h2, h3, -one_div,
      nucChoice, NUCLEOTIDES]
  rw [hlen]
  simp only [centered_fall_x, clamp]
  norm_num [Int.fdiv]

/-- **C6 (amended).** Every keystroke and every continuing landing leaves
the offset clamped into `[0, max 0 (play_width - segment length)]`; when
the segment fits the field (`length ≤ play_width`) this yields the spec's
invariant `0 ≤ offset ∧ offset + length ≤ play_width`, but a freshly
generated over-wide segment (see the counterexample) only gets offset 0. -/
theorem offset_clamped_invariant (play_width : ℤ) (st : GameState)
    (bottom_seq base_seq : List Char) (seg_len startR : ℕ) (roll : ℕ → ℚ)
    (pick : ℕ → ℕ) (finalPick : ℕ) (h : offsetInv play_width st) :
    (∀ k, offsetInv play_width (handleKey play_width st k))
      ∧ (∀ st',
          (landingStep play_width bottom_seq base_seq seg_len startR roll pick
              finalPick st).2 = some st' →
          offsetInv play_width st')
      ∧ ((st.falling_seq.length : ℤ) ≤ play_width →
          0 ≤ st.fall_x ∧ st.fall_x + st.falling_seq.length ≤ play_width) := by
  obtain ⟨h0, h1⟩ := h
  refine ⟨?_, ?_, ?_⟩
  · intro k
    cases k with
    | up =>
      simp only [handleKey, offsetInv]
      exact ⟨h0, h1⟩
    | confirm =>
      simp only [handleKey, offsetInv]
      exact ⟨h0, h1⟩
    | left =>
      cases hmode : st.mode with
      | move =>
        simp only [handleKey, offsetInv, hmode, clamp]
        omega
      | edit_top =>
        simp only [handleKey, offsetInv, hmode]
        exact ⟨h0, h1⟩
    | right =>
      cases hmode : st.mode with
      | move =>
        simp only [handleKey, offsetInv, hmode, clamp]
        omega
      | edit_top =>
        simp only [handleKey, offsetInv, hmode]
        exact ⟨h0, h1⟩
    | down =>
      simp only [handleKey]
      exact ⟨h0, h1⟩
    | space =>
      cases hmode : st.mode with
      | move =>
        simp only [handleKey, offsetInv, hmode]
        exact ⟨h0, h1⟩
      | edit_top =>
        simp only [handleKey, hmode]
        by_cases hg : 0 < st.edits_remaining ∧ (st.falling_seq.length : ℤ) < play_width
        · rw [if_pos hg]
          simp only [offsetInv, clamp]
          omega
        · rw [if_neg hg]
          exact ⟨h0, h1⟩
    | backspace =>
      cases hmode : st.mode with
      | move =>
        simp only [handleKey, offsetInv, hmode]
        exact ⟨h0, h1⟩
      | edit_top =>
        simp only [handleKey, hmode]
        by_cases hg : 0 < st.edits_remaining ∧ st.falling_seq ≠ []
        · rw [if_pos hg]
          simp only [offsetInv, clamp]
          omega
        · rw [if_neg hg]
          exact ⟨h0, h1⟩
    | letter c =>
      cases hmode : st.mode with
      | move =>
        simp only [handleKey, offsetInv, hmode]
        exact ⟨h0, h1⟩
      | edit_top =>
        simp only [handleKey, hmode]
        by_cases hg : 0 < st.edits_remaining ∧ st.falling_seq ≠ []
        · rw [if_pos hg]
          by_cases hs : c.toUpper ∈ NUCLEOTIDES
              ∧ st.falling_seq.getD st.cursor.toNat ' ' ≠ c.toUpper
          · rw [if_pos hs]
            simp only [offsetInv, List.length_set]
            exact ⟨h0, h1⟩
          · rw [if_neg hs]
            exact ⟨h0, h1⟩
        · rw [if_neg hg]
          exact ⟨h0, h1⟩
    | other =>
      simp only [handleKey]
      exact ⟨h0, h1⟩
  · intro st' hst'
    unfold landingStep at hst'
    by_cases hneg : (score_alignment st.falling_seq st.fall_x bottom_seq).1 < 0
    · rw [if_pos hneg] at hst'
      simp at hst'
    · rw [if_neg hneg] at hst'
      simp only [Option.some.injEq] at hst'
      rw [← hst']
      have := centered_fall_x_bounds play_width
        ((new_falling_segment base_seq seg_len startR roll pick finalPick).1.length : ℤ)
      simp only [offsetInv]
      omega
  · intro hfit
    omega

/-- Witness for the amended C6 at a concrete state and keystroke. -/
theorem offset_clamped_invariant_witness :
    offsetInv 10 (handleKey 10 ⟨['A', 'T'], 3, 0, .move, 0, 0, 1⟩ GKey.right) :=
  (offset_clamped_invariant 10 ⟨['A', 'T'], 3, 0, .move, 0, 0, 1⟩ [] [] 0 0
      (fun _ => 1/2) (fun _ => 0) 0 (by decide)).1 GKey.right

end SequenceAttack
